import Mathlib

/-!
Shallow embedding of `udtube/modules.py` (UDTube modules): the optimization
configurator (`OptimizationConfig`), the encoder wrapper truncation logic
(`UDTubeEncoder.forward`), the subword-to-word embedding aggregator
(`UDTubeEncoder._group_embeddings`), and the multi-head classifier
(`UDTubeClassifier`, `Logits`).

Tensors are modelled as (nested) lists of rationals; a rank-2 tensor of
shape (a, b) is a list of `a` rows, each a list of `b` rationals.
Fallible Python code (KeyError, TypeError, `torch.stack` on an empty
list, `max` of an empty sequence) is modelled with `Except`/`Option`.
-/

/-- Python exceptions that the modelled code can raise. -/
inductive PyError where
  | keyError
  | typeError
  | valueError
  | runtimeError
  deriving DecidableEq, Repr

/-- Model of an iterable of `nn.Parameter`: the identity of the parameters
does not matter to any modelled code path, only that the object is passed
through to the optimizer constructor. -/
abbrev Params : Type := List ℚ

/-- The value occupying the `betas` positional slot of `torch.optim.Adam` /
`AdamW`. Torch's signature declares it as a pair `(beta_1, beta_2)`; Python's
dynamic calling convention also lets a caller put a bare float there, which
this sum type records faithfully. -/
inductive BetasSlot where
  | pair (b1 b2 : ℚ)
  | scalar (b : ℚ)
  deriving DecidableEq, Repr

/-- Model of the constructed torch optimizer state, one constructor per entry
of the factory dictionary in `OptimizationConfig._get_optimizer`. The fields
are the positional parameters of the corresponding torch constructor after
`params`: `Adadelta(params, lr, rho, eps, ...)`, `Adam(params, lr, betas,
eps, ...)`, `AdamW(params, lr, betas, eps, ...)`, `SGD(params, lr, momentum,
dampening, ...)`. -/
inductive TorchOptim where
  | adadelta (params : Params) (lr rho eps : ℚ)
  | adam (params : Params) (lr : ℚ) (betas : BetasSlot) (eps : ℚ)
  | adamw (params : Params) (lr : ℚ) (betas : BetasSlot) (eps : ℚ)
  | sgd (params : Params) (lr momentum dampening : ℚ)

/-- Modelled from the spec: the `schedulers` module
(`schedulers.ReduceOnPlateau` and
`schedulers.WarmupInverseSquareRootScheduler`) is not under `src/`; per the
spec, scheduler construction is a total name-to-constructor lookup whose
constructors merely allocate state. Each constructor records the positional
arguments passed at the call site in `OptimizationConfig._get_scheduler`. -/
inductive TorchSched where
  | reduceOnPlateau (factor patience minLr : ℚ) (warmupSteps : ℤ)
  | warmupInvSqrt (factor patience minLr : ℚ) (warmupSteps : ℤ)

/-- The value of the `"lr_scheduler"` key of the dictionary built by
`OptimizationConfig.configure`. -/
structure LRSchedulerEntry where
  scheduler : TorchSched
  monitor : String

/-- The dictionary returned by `OptimizationConfig.configure`: it always has
an `"optimizer"` key and optionally an `"lr_scheduler"` key. -/
structure OptBundle where
  optimizer : TorchOptim
  lr_scheduler : Option LRSchedulerEntry

/-- The `OptimizationConfig` dataclass. The `scheduler` field is declared
`str` but its docstring ("one of: None, reduceonplateau, warmupinvsqrt")
and the truthiness test `if self.scheduler:` admit `None`, so it is
modelled as `Option String` with `none` for Python `None`. -/
structure OptimizationConfig where
  optimizer : String
  learning_rate : ℚ
  beta1 : ℚ
  beta2 : ℚ
  scheduler : Option String
  reduceonplateau_factor : ℚ
  reduceonplateau_patience : ℚ
  min_learning_rate : ℚ
  warmup_steps : ℤ

/-- Python truthiness of the `scheduler` field: `None` and `""` are falsy,
every other string is truthy. -/
def pyTruthy : Option String → Bool
  | none => false
  | some s => s ≠ ""

/-- `OptimizationConfig._get_optimizer`: dictionary lookup over
adadelta/adam/adamw/sgd (an unknown name raises `KeyError`), then the call
`cls(parameters, self.learning_rate, self.beta1, self.beta2)`. The four
arguments are positional, so for `adam`/`adamw` the third argument `beta1`
lands in the `betas` slot as a bare scalar and `beta2` lands in `eps`. -/
def OptimizationConfig.getOptimizer (cfg : OptimizationConfig)
    (parameters : Params) : Except PyError TorchOptim :=
  match cfg.optimizer with
  | "adadelta" =>
      .ok (.adadelta parameters cfg.learning_rate cfg.beta1 cfg.beta2)
  | "adam" =>
      .ok (.adam parameters cfg.learning_rate (.scalar cfg.beta1) cfg.beta2)
  | "adamw" =>
      .ok (.adamw parameters cfg.learning_rate (.scalar cfg.beta1) cfg.beta2)
  | "sgd" =>
      .ok (.sgd parameters cfg.learning_rate cfg.beta1 cfg.beta2)
  | _ => .error .keyError

/-- `OptimizationConfig._get_scheduler`: dictionary lookup over
reduceonplateau/warmupinvsqrt (any other value of the field, including the
literal string "none", raises `KeyError`), then the call
`cls(optimizer, factor, patience, min_learning_rate, warmup_steps)`. -/
def OptimizationConfig.getScheduler (cfg : OptimizationConfig) :
    Except PyError TorchSched :=
  match cfg.scheduler with
  | some "reduceonplateau" =>
      .ok (.reduceOnPlateau cfg.reduceonplateau_factor
        cfg.reduceonplateau_patience cfg.min_learning_rate cfg.warmup_steps)
  | some "warmupinvsqrt" =>
      .ok (.warmupInvSqrt cfg.reduceonplateau_factor
        cfg.reduceonplateau_patience cfg.min_learning_rate cfg.warmup_steps)
  | _ => .error .keyError

/-- `OptimizationConfig.configure`: builds the optimizer, then adds an
`lr_scheduler` entry (with monitor `"val_loss"`) only when the `scheduler`
field is truthy. -/
def OptimizationConfig.configure (cfg : OptimizationConfig)
    (parameters : Params) : Except PyError OptBundle :=
  match cfg.getOptimizer parameters with
  | .error e => .error e
  | .ok opt =>
    if pyTruthy cfg.scheduler then
      match cfg.getScheduler with
      | .error e => .error e
      | .ok sched =>
        .ok { optimizer := opt,
              lr_scheduler := some { scheduler := sched,
                                     monitor := "val_loss" } }
    else
      .ok { optimizer := opt, lr_scheduler := none }

/-- Python call semantics for the bound method `configure`: it has exactly
one required positional parameter (`parameters`), so Python raises
`TypeError` at argument-binding time, before the body runs, unless exactly
one argument is supplied. -/
def OptimizationConfig.configureCall (cfg : OptimizationConfig)
    (args : List Params) : Except PyError OptBundle :=
  match args with
  | [parameters] => cfg.configure parameters
  | _ => .error .typeError

/-- Elementwise addition of two embedding vectors (`torch` broadcasting is
never needed here: all summed rows have the hidden size as their length). -/
def vadd (a b : List ℚ) : List ℚ := List.zipWith (· + ·) a b

/-- Sum of a list of rows (dimension 0 of a rank-2 tensor). -/
def sumRows : List (List ℚ) → List ℚ
  | [] => []
  | [r] => r
  | r :: rs => vadd r (sumRows rs)

/-- `torch.mean(x, dim=0)` for a rank-2 tensor `x`: the elementwise mean of
the rows. -/
def meanRows (rows : List (List ℚ)) : List ℚ :=
  (sumRows rows).map (fun x => x / (rows.length : ℚ))

/-- Python slice `x[s:e]` on the leading axis. -/
def pySlice (x : List (List ℚ)) (s e : Nat) : List (List ℚ) :=
  (x.take e).drop s

/-- `.T` on a rank-2 tensor: for a rectangular matrix, row `j` of the result
is column `j` of the input; the number of columns is read off the first
row. -/
def transposeMat (m : List (List ℚ)) : List (List ℚ) :=
  match m with
  | [] => []
  | r :: _ => (List.range r.length).map (fun j => m.map (fun row => row.getD j 0))

/-- `nn.functional.pad(x, (0, k), value=0)`: appends `k` zeros to the last
axis of a rank-2 tensor. -/
def padCols (m : List (List ℚ)) (k : Nat) : List (List ℚ) :=
  m.map (fun r => r ++ List.replicate k 0)

/-- HuggingFace `Encoding.word_to_tokens(word_id)`: the span of token
positions whose word id is `word_id`, as a half-open pair (first, last + 1),
or `None` when no token belongs to that word. -/
def wordToTokens (wids : List (Option Nat)) (w : Nat) : Option (Nat × Nat) :=
  match (List.range wids.length).filter (fun i => wids.getD i none == some w) with
  | [] => none
  | i :: rest => some (i, (rest.getLastD i) + 1)

/-- The span-collection `while` loop of `UDTubeEncoder._group_embeddings`,
started at position `i`: read the word id at `i`; stop at padding (`None`);
otherwise look up the word's token span, record it, and jump to the end of
the span (`i = pair[-1]`). `none` models the failure paths: `word_to_tokens`
returning `None` (then `pair[-1]` raises `TypeError`) and fuel exhaustion,
which can only happen when a span end fails to advance the cursor and the
loop never terminates; the fuel in `scanIndicesFrom` is sufficient for
every terminating run, since each iteration advances the cursor by at
least one. -/
def scanIndicesAux (wids : List (Option Nat)) : Nat → Nat →
    Option (List (Nat × Nat))
  | 0, _ => none
  | fuel + 1, i =>
    if i < wids.length then
      match wids.getD i none with
      | none => some []
      | some w =>
        match wordToTokens wids w with
        | none => none
        | some (s, e) =>
          match scanIndicesAux wids fuel e with
          | none => none
          | some rest => some ((s, e) :: rest)
    else some []

/-- The span-collection loop started at position `i`, with enough fuel for
any terminating run. -/
def scanIndicesFrom (wids : List (Option Nat)) (i : Nat) :
    Option (List (Nat × Nat)) :=
  scanIndicesAux wids (wids.length + 1) i

/-- The per-sentence body of `UDTubeEncoder._group_embeddings`: collect the
word spans, then `torch.stack([torch.mean(emb[start:end], dim=0) ...])`.
`torch.stack` raises `RuntimeError` on an empty list, which happens exactly
when the sentence has no real words; this is modelled by `none`. -/
def groupSentence (emb : List (List ℚ)) (wids : List (Option Nat)) :
    Option (List (List ℚ)) :=
  match scanIndicesFrom wids 0 with
  | none => none
  | some [] => none
  | some indices => some (indices.map (fun se => meanRows (pySlice emb se.1 se.2)))

/-- Collects a list of fallible results, failing if any element failed
(Python: the first raised exception propagates out of the loop). -/
def allSome : List (Option (List (List ℚ))) → Option (List (List (List ℚ)))
  | [] => some []
  | none :: _ => none
  | some m :: rest =>
    match allSome rest with
    | none => none
    | some ms => some (m :: ms)

/-- `UDTubeEncoder._group_embeddings`: per-sentence grouping over
`zip(tokenized.encodings, embeddings)`, then
`pad_max = max(len(s) for s in new_sentence_embeddings)` (`max` of an empty
sequence raises `ValueError`, modelled by `none`), then per sentence
`pad(sentence_embedding.T, (0, pad_max - len(sentence_embedding)), value=0)`,
stacked and finished with `.permute(0, 2, 1)`, which transposes each
sentence back. -/
def groupEmbeddings (embeddings : List (List (List ℚ)))
    (widss : List (List (Option Nat))) : Option (List (List (List ℚ))) :=
  match allSome ((List.zip widss embeddings).map (fun p => groupSentence p.2 p.1)) with
  | none => none
  | some [] => none
  | some sents =>
    let padMax := (sents.map List.length).foldr max 0
    some (sents.map (fun m =>
      transposeMat (padCols (transposeMat m) (padMax - m.length))))

/-- The truncation step at the top of `UDTubeEncoder.forward`:
`actual_length = batch.tokens.input_ids.shape[1]` (the per-sentence subword
count of the rectangular batch tensor), and when it exceeds `max_length` the
code runs `input_ids = input_ids[:max_length]` and
`attention_mask = attention_mask[:max_length]` — one-dimensional slices,
which in torch apply to the leading (sentence) axis. The returned pair is
what the encoder then receives. -/
def truncateTokens (input_ids attention_mask : List (List ℚ))
    (max_length : Nat) : List (List ℚ) × List (List ℚ) :=
  let actual_length := (input_ids.headD []).length
  if max_length < actual_length then
    (input_ids.take max_length, attention_mask.take max_length)
  else
    (input_ids, attention_mask)

/-- `UDTubeEncoder`: the fields of the module that the modelled code paths
read. `max_position_embeddings` is `self.encoder.config.max_position_embeddings`. -/
structure UDTubeEncoder where
  max_position_embeddings : Nat
  pooling_layers : Nat
  optconf : OptimizationConfig

/-- `UDTubeEncoder.forward`, truncation step: what the pair
`(input_ids, attention_mask)` handed to `self.encoder` looks like. -/
def UDTubeEncoder.truncate (enc : UDTubeEncoder)
    (input_ids attention_mask : List (List ℚ)) :
    List (List ℚ) × List (List ℚ) :=
  truncateTokens input_ids attention_mask enc.max_position_embeddings

/-- `UDTubeEncoder.configure_optimizers`: `return self.optconf.configure()`
— the bound method is called with an empty argument list. -/
def UDTubeEncoder.configure_optimizers (enc : UDTubeEncoder) :
    Except PyError OptBundle :=
  enc.optconf.configureCall []

/-- One classification head built by `UDTubeClassifier._make_head`:
`nn.Sequential(nn.Linear(hidden_size, out_size), nn.LeakyReLU())`. The
weight matrix is (out_size × hidden_size) and the bias has length
out_size, as in `nn.Linear`. -/
structure LinearHead where
  weight : List (List ℚ)
  bias : List ℚ

/-- `nn.LeakyReLU()` with its default negative slope 0.01, elementwise. -/
def leakyReLU (x : ℚ) : ℚ := if x < 0 then x / 100 else x

/-- Dot product of two vectors. -/
def dot (a b : List ℚ) : ℚ := (List.zipWith (· * ·) a b).sum

/-- A head applied to one word vector: `Linear` (one output per weight row)
followed by `LeakyReLU`. -/
def headApplyVec (h : LinearHead) (v : List ℚ) : List ℚ :=
  List.zipWith (fun w b => leakyReLU (dot w v + b)) h.weight h.bias

/-- A head applied to the word-embedding tensor (batch × words × hidden):
`nn.Linear` and the pointwise nonlinearity act on the trailing axis,
yielding logits of shape (batch × words × classes). -/
def headApply (h : LinearHead) (embeddings : List (List (List ℚ))) :
    List (List (List ℚ)) :=
  embeddings.map (fun sent => sent.map (headApplyVec h))

/-- `.permute(0, 2, 1)` on a rank-3 tensor: transposes the two trailing
axes of each batch element. -/
def permute021 (t : List (List (List ℚ))) : List (List (List ℚ)) :=
  t.map transposeMat

/-- The `Logits` bundle: four optional tensors (upos, xpos, lemma, feats). -/
structure Logits where
  upos : Option (List (List (List ℚ)))
  xpos : Option (List (List (List ℚ)))
  lemma_ : Option (List (List (List ℚ)))
  feats : Option (List (List (List ℚ)))

/-- `UDTubeClassifier`: one optional head per task, plus the optimization
configuration. -/
structure UDTubeClassifier where
  upos_head : Option LinearHead
  xpos_head : Option LinearHead
  lemma_head : Option LinearHead
  feats_head : Option LinearHead
  optconf : OptimizationConfig

/-- `UDTubeClassifier.__init__`: each head is `self._make_head(out_size) if
use_* else None`. `_make_head` allocates a freshly initialized linear head;
the initialization values are abstracted as the given `LinearHead`
arguments (one candidate head per task). -/
def UDTubeClassifier.init (use_upos use_xpos use_lemma use_feats : Bool)
    (hu hx hl hf : LinearHead) (optconf : OptimizationConfig) :
    UDTubeClassifier :=
  { upos_head := if use_upos then some hu else none,
    xpos_head := if use_xpos then some hx else none,
    lemma_head := if use_lemma then some hl else none,
    feats_head := if use_feats then some hf else none,
    optconf := optconf }

/-- The `use_upos` property: `self.upos_head is not None`. -/
def UDTubeClassifier.use_upos (c : UDTubeClassifier) : Bool :=
  c.upos_head.isSome

/-- The `use_xpos` property: `self.xpos_head is not None`. -/
def UDTubeClassifier.use_xpos (c : UDTubeClassifier) : Bool :=
  c.xpos_head.isSome

/-- The `use_lemma` property: `self.lemma_head is not None`. -/
def UDTubeClassifier.use_lemma (c : UDTubeClassifier) : Bool :=
  c.lemma_head.isSome

/-- The `use_feats` property: `self.feats_head is not None`. -/
def UDTubeClassifier.use_feats (c : UDTubeClassifier) : Bool :=
  c.feats_head.isSome

/-- `UDTubeClassifier.forward`: each enabled head is applied to the
embeddings (yielding N x L x C) and permuted with `.permute(0, 2, 1)` to
N x C x L; a disabled head contributes `None`. `Option.map` coincides with
the source's `if self.use_* else None` branches because `use_*` holds
exactly when the head is present. -/
def UDTubeClassifier.forward (c : UDTubeClassifier)
    (embeddings : List (List (List ℚ))) : Logits :=
  { upos := c.upos_head.map (fun h => permute021 (headApply h embeddings)),
    xpos := c.xpos_head.map (fun h => permute021 (headApply h embeddings)),
    lemma_ := c.lemma_head.map (fun h => permute021 (headApply h embeddings)),
    feats := c.feats_head.map (fun h => permute021 (headApply h embeddings)) }

/-- `UDTubeClassifier.configure_optimizers`: `return
self.optconf.configure()` — the bound method is called with an empty
argument list. -/
def UDTubeClassifier.configure_optimizers (c : UDTubeClassifier) :
    Except PyError OptBundle :=
  c.optconf.configureCall []

/-- Task index for stating properties uniformly over the four heads. -/
def UDTubeClassifier.headOf (c : UDTubeClassifier) : Fin 4 → Option LinearHead
  | 0 => c.upos_head
  | 1 => c.xpos_head
  | 2 => c.lemma_head
  | 3 => c.feats_head

/-- The slot of the `Logits` bundle for each task index. -/
def Logits.slot (l : Logits) : Fin 4 → Option (List (List (List ℚ)))
  | 0 => l.upos
  | 1 => l.xpos
  | 2 => l.lemma_
  | 3 => l.feats

/-- The word-id map of a sentence obeying the upstream tokenizer invariant:
word `w` (for `w` below the word count) occupies a contiguous block of
`counts[w] ≥ 1` subword positions, word ids start at 0 and increase by one
from block to block, and `pad` padding positions (`None`) follow. `counts`
is the list of per-word subword counts. -/
def mkWordIdsFrom (w : Nat) : List Nat → List (Option Nat)
  | [] => []
  | c :: cs => List.replicate c (some w) ++ mkWordIdsFrom (w + 1) cs

/-- A full invariant-satisfying word-id map: blocks for words 0, 1, ...
followed by `pad` padding markers. -/
def mkWordIds (counts : List Nat) (pad : Nat) : List (Option Nat) :=
  mkWordIdsFrom 0 counts ++ List.replicate pad none

/-- Subword position at which word `w` starts: the total subword count of
the preceding words. -/
def offsetOf (counts : List Nat) (w : Nat) : Nat := (counts.take w).sum

/-- The expected half-open token spans of the words with subword counts
`counts`, starting at position `s`. -/
def spansFrom (s : Nat) : List Nat → List (Nat × Nat)
  | [] => []
  | c :: cs => (s, s + c) :: spansFrom (s + c) cs

/-! ### Helper lemmas for the optimization configurator -/

lemma getOptimizer_ok_of_known (cfg : OptimizationConfig) (ps : Params)
    (h : cfg.optimizer = "adadelta" ∨ cfg.optimizer = "adam" ∨
      cfg.optimizer = "adamw" ∨ cfg.optimizer = "sgd") :
    ∃ opt, cfg.getOptimizer ps = .ok opt := by
  obtain ⟨o, lr, b1, b2, sch, fa, pa, ml, ws⟩ := cfg
  rcases h with h | h | h | h <;>
    (replace h : o = _ := h; subst h; exact ⟨_, rfl⟩)

lemma getOptimizer_error_of_unknown (cfg : OptimizationConfig) (ps : Params)
    (h : cfg.optimizer ∉ (["adadelta", "adam", "adamw", "sgd"] : List String)) :
    cfg.getOptimizer ps = .error .keyError := by
  unfold OptimizationConfig.getOptimizer
  split <;> simp_all

lemma getScheduler_error_of_unknown (cfg : OptimizationConfig)
    (h : cfg.scheduler ∉
      ([some "reduceonplateau", some "warmupinvsqrt"] : List (Option String))) :
    cfg.getScheduler = .error .keyError := by
  unfold OptimizationConfig.getScheduler
  split <;> simp_all

lemma getScheduler_ok_of_known (cfg : OptimizationConfig)
    (h : cfg.scheduler = some "reduceonplateau" ∨
      cfg.scheduler = some "warmupinvsqrt") :
    ∃ sched, cfg.getScheduler = .ok sched := by
  obtain ⟨o, lr, b1, b2, sch, fa, pa, ml, ws⟩ := cfg
  rcases h with h | h <;>
    (replace h : sch = _ := h; subst h; exact ⟨_, rfl⟩)

/-! ### Claim theorems over the optimization configurator -/

/-- C5 (code evaluation at the failing input): requesting `"adam"` with
learning rate 1/1000, beta1 = 9/10, beta2 = 999/1000 constructs
`torch.optim.Adam` with the configured learning rate, but the value bound
into the `betas` positional slot is the bare scalar beta1 — not the pair
(beta1, beta2) that the claim states — and beta2 lands in the `eps` slot. -/
theorem adam_betas_slot_misbound :
    OptimizationConfig.getOptimizer
      ⟨"adam", 1/1000, 9/10, 999/1000, none, 1/10, 10, 0, 0⟩ []
      = .ok (.adam [] (1/1000) (.scalar (9/10)) (999/1000))
    ∧ BetasSlot.scalar (9/10) ≠ BetasSlot.pair (9/10) (999/1000) :=
  ⟨rfl, by decide⟩

/-- C6 (counterexample): with the scheduler field holding the literal string
"none" (and a recognized optimizer), `configure` raises `KeyError` — the
string is truthy, so the scheduler factory dictionary is consulted and
"none" is not a key — instead of returning a bundle without an
`lr_scheduler` entry. -/
theorem configure_scheduler_none_string_raises :
    OptimizationConfig.configure
      ⟨"sgd", 1/100, 9/10, 999/1000, some "none", 1/10, 10, 0, 0⟩ []
      = .error .keyError := rfl

/-- C6 (amended): for a recognized optimizer name, a scheduler field that is
Python `None` or the empty string yields a bundle with no `lr_scheduler`
entry; a recognized non-empty scheduler name yields a bundle whose
`lr_scheduler` entry has monitor exactly "val_loss"; but the literal string
"none" raises `KeyError`. -/
theorem configure_scheduler_entry (cfg : OptimizationConfig) (ps : Params)
    (hopt : cfg.optimizer = "adadelta" ∨ cfg.optimizer = "adam" ∨
      cfg.optimizer = "adamw" ∨ cfg.optimizer = "sgd") :
    ((cfg.scheduler = none ∨ cfg.scheduler = some "") →
      ∃ opt, cfg.configure ps = .ok ⟨opt, none⟩) ∧
    ((cfg.scheduler = some "reduceonplateau" ∨
        cfg.scheduler = some "warmupinvsqrt") →
      ∃ opt entry, cfg.configure ps = .ok ⟨opt, some entry⟩ ∧
        entry.monitor = "val_loss") ∧
    (cfg.scheduler = some "none" → cfg.configure ps = .error .keyError) := by
  obtain ⟨opt, hok⟩ := getOptimizer_ok_of_known cfg ps hopt
  refine ⟨?_, ?_, ?_⟩
  · rintro (h | h) <;>
      (exact ⟨opt, by simp [OptimizationConfig.configure, hok, h, pyTruthy]⟩)
  · intro h
    obtain ⟨sched, hs⟩ := getScheduler_ok_of_known cfg h
    refine ⟨opt, ⟨sched, "val_loss"⟩, ?_, rfl⟩
    have htru : pyTruthy cfg.scheduler = true := by
      rcases h with h | h <;> simp [pyTruthy, h]
    simp [OptimizationConfig.configure, hok, htru, hs]
  · intro h
    have htru : pyTruthy cfg.scheduler = true := by simp [pyTruthy, h]
    have hserr : cfg.getScheduler = .error .keyError :=
      getScheduler_error_of_unknown cfg (by simp [h])
    simp [OptimizationConfig.configure, hok, htru, hserr]

/-- C6 witness: a concrete configuration with optimizer "sgd" and scheduler
"reduceonplateau" yields a bundle whose `lr_scheduler` monitor is
"val_loss". -/
theorem configure_scheduler_entry_witness :
    ∃ opt entry,
      OptimizationConfig.configure
        ⟨"sgd", 1/100, 9/10, 999/1000, some "reduceonplateau", 1/10, 10, 0, 0⟩
        [] = .ok ⟨opt, some entry⟩ ∧ entry.monitor = "val_loss" :=
  (configure_scheduler_entry
    ⟨"sgd", 1/100, 9/10, 999/1000, some "reduceonplateau", 1/10, 10, 0, 0⟩
    [] (by simp)).2.1 (Or.inl rfl)

/-- C7: an optimizer name outside adadelta/adam/adamw/sgd, or a truthy
(non-empty, non-None) scheduler name outside the recognized set, makes
`configure` raise `KeyError` during configuration — no silent fallback and
no bundle. -/
theorem configure_unrecognized_raises (cfg : OptimizationConfig) (ps : Params)
    (h : cfg.optimizer ∉ (["adadelta", "adam", "adamw", "sgd"] : List String) ∨
      (pyTruthy cfg.scheduler = true ∧ cfg.scheduler ∉
        ([some "none", some "reduceonplateau", some "warmupinvsqrt"] :
          List (Option String)))) :
    cfg.configure ps = .error .keyError := by
  rcases h with h | ⟨htru, hsch⟩
  · have := getOptimizer_error_of_unknown cfg ps h
    simp [OptimizationConfig.configure, this]
  · by_cases hmem :
      cfg.optimizer ∈ (["adadelta", "adam", "adamw", "sgd"] : List String)
    · have hopt : cfg.optimizer = "adadelta" ∨ cfg.optimizer = "adam" ∨
        cfg.optimizer = "adamw" ∨ cfg.optimizer = "sgd" := by
        simpa using hmem
      obtain ⟨opt, hok⟩ := getOptimizer_ok_of_known cfg ps hopt
      have hserr : cfg.getScheduler = .error .keyError :=
        getScheduler_error_of_unknown cfg (by
          intro hc
          apply hsch
          simp only [List.mem_cons, List.mem_singleton] at hc ⊢
          tauto)
      simp [OptimizationConfig.configure, hok, htru, hserr]
    · have := getOptimizer_error_of_unknown cfg ps hmem
      simp [OptimizationConfig.configure, this]

/-- C7 witness: the unrecognized optimizer name "rmsprop" raises `KeyError`
at configuration time. -/
theorem configure_unrecognized_raises_witness :
    OptimizationConfig.configure
      ⟨"rmsprop", 1/100, 9/10, 999/1000, none, 1/10, 10, 0, 0⟩ []
      = .error .keyError :=
  configure_unrecognized_raises
    ⟨"rmsprop", 1/100, 9/10, 999/1000, none, 1/10, 10, 0, 0⟩ []
    (Or.inl (by simp))

/-- C10: `configure_optimizers` on either module calls
`self.optconf.configure()` with no arguments, while `configure` has one
required positional parameter; Python raises `TypeError` before the body
runs, so no optimizer/scheduler bundle is ever produced by this entry
point. -/
theorem configure_optimizers_always_typeError :
    ∀ (enc : UDTubeEncoder) (c : UDTubeClassifier),
      enc.configure_optimizers = .error .typeError ∧
      c.configure_optimizers = .error .typeError :=
  fun _ _ => ⟨rfl, rfl⟩

/-- C1 (code evaluation at the failing input): with an encoder maximum of 2
positions and a batch of three sentences of three subwords each, the
truncation step of `UDTubeEncoder.forward` slices the leading (sentence)
axis: the encoder receives only the first two sentences, each still three
subwords long — not, as claimed, all sentences cut to the first two
positions. -/
theorem truncate_slices_batch_axis :
    UDTubeEncoder.truncate
      ⟨2, 1, ⟨"sgd", 1/100, 9/10, 999/1000, none, 1/10, 10, 0, 0⟩⟩
      [[1, 2, 3], [4, 5, 6], [7, 8, 9]] [[1, 1, 1], [1, 1, 1], [1, 1, 1]]
      = ([[1, 2, 3], [4, 5, 6]], [[1, 1, 1], [1, 1, 1]])
    ∧ ((UDTubeEncoder.truncate
        ⟨2, 1, ⟨"sgd", 1/100, 9/10, 999/1000, none, 1/10, 10, 0, 0⟩⟩
        [[1, 2, 3], [4, 5, 6], [7, 8, 9]]
        [[1, 1, 1], [1, 1, 1], [1, 1, 1]]).1.getD 0 []).length = 3 :=
  ⟨rfl, rfl⟩

/-- C8: a slot of the `Logits` bundle returned by `UDTubeClassifier.forward`
holds a tensor exactly when the corresponding task's head was enabled at
construction time; a disabled head's slot is `None` (`Option.isSome` is
false), never a tensor of any shape. -/
theorem forward_slot_present_iff_enabled :
    ∀ (u x l f : Bool) (hu hx hl hf : LinearHead) (oc : OptimizationConfig)
      (emb : List (List (List ℚ))),
      (((UDTubeClassifier.init u x l f hu hx hl hf oc).forward emb).upos.isSome
        ↔ u = true) ∧
      (((UDTubeClassifier.init u x l f hu hx hl hf oc).forward emb).xpos.isSome
        ↔ x = true) ∧
      (((UDTubeClassifier.init u x l f hu hx hl hf oc).forward emb).lemma_.isSome
        ↔ l = true) ∧
      (((UDTubeClassifier.init u x l f hu hx hl hf oc).forward emb).feats.isSome
        ↔ f = true) := by
  intro u x l f hu hx hl hf oc emb
  cases u <;> cases x <;> cases l <;> cases f <;>
    simp [UDTubeClassifier.init, UDTubeClassifier.forward]

/-! ### Transpose lemmas -/

lemma rangeMap_getD {α : Type} (l : List α) (d : α) :
    (List.range l.length).map (fun j => l.getD j d) = l := by
  induction l with
  | nil => rfl
  | cons x xs ih =>
    rw [List.length_cons, List.range_succ_eq_map, List.map_cons, List.map_map]
    have : ((fun j => (x :: xs).getD j d) ∘ Nat.succ) =
        fun j => xs.getD j d := by
      funext j
      simp [List.getD_cons_succ]
    rw [this, ih]
    simp

lemma transposeMat_eq (m : List (List ℚ)) (H : Nat) (hm : m ≠ [])
    (hH : ∀ r ∈ m, r.length = H) :
    transposeMat m =
      (List.range H).map (fun j => m.map (fun row => row.getD j 0)) := by
  match m with
  | r :: rest =>
    have hr : r.length = H := hH r (by simp)
    simp only [transposeMat, hr]

lemma transposeMat_transposeMat (m : List (List ℚ)) (H : Nat) (hm : m ≠ [])
    (hH : ∀ r ∈ m, r.length = H) (hpos : 0 < H) :
    transposeMat (transposeMat m) = m := by
  have hT : transposeMat m =
      (List.range H).map (fun j => m.map (fun row => row.getD j 0)) :=
    transposeMat_eq m H hm hH
  have hTne : transposeMat m ≠ [] := by
    rw [hT]
    intro hcon
    have := congrArg List.length hcon
    simp at this
    omega
  have hTrows : ∀ r ∈ transposeMat m, r.length = m.length := by
    rw [hT]
    intro r hr
    obtain ⟨j, hj, rfl⟩ := List.mem_map.mp hr
    simp
  have hT2 : transposeMat (transposeMat m) =
      (List.range m.length).map
        (fun i => (transposeMat m).map (fun row => row.getD i 0)) :=
    transposeMat_eq (transposeMat m) m.length hTne hTrows
  rw [hT2]
  have hlen : ((List.range m.length).map
      (fun i => (transposeMat m).map (fun row => row.getD i 0))).length
      = m.length := by simp
  apply List.ext_getElem hlen
  intro i h1 h2
  rw [List.getElem_map, List.getElem_range]
  rw [hT, List.map_map]
  have hcol : ∀ j ∈ List.range H,
      ((fun row => row.getD i 0) ∘ fun j => m.map (fun row => row.getD j 0)) j
        = (m[i]).getD j 0 := by
    intro j hj
    simp only [Function.comp]
    rw [List.getD_eq_getElem _ _ (by simpa using h2), List.getElem_map]
  rw [List.map_congr_left hcol]
  have hilen : (m[i]).length = H := hH _ (List.getElem_mem h2)
  have hrec := rangeMap_getD (m.get ⟨i, h2⟩) (0 : ℚ)
  simp only [List.get_eq_getElem] at hrec
  rw [hilen] at hrec
  exact hrec

lemma headApplyVec_length (h : LinearHead) (v : List ℚ) :
    (headApplyVec h v).length = min h.weight.length h.bias.length := by
  simp [headApplyVec]

/-- C9: for any enabled head, the tensor stored in the `Logits` bundle has
shape (batch x class-count x words), and applying `.permute(0, 2, 1)` to it
again recovers exactly the direct (batch x words x classes) head
application — the stored permutation is a faithful, lossless transpose. -/
theorem forward_slot_is_faithful_transpose (c : UDTubeClassifier) (i : Fin 4)
    (h : LinearHead) (C L : Nat) (emb : List (List (List ℚ)))
    (hhead : c.headOf i = some h)
    (hw : h.weight.length = C) (hb : h.bias.length = C) (hC : 0 < C)
    (hL : ∀ s ∈ emb, s.length = L) (hLpos : 0 < L) :
    ∃ t, (c.forward emb).slot i = some t ∧
      t.length = emb.length ∧
      (∀ k, k < emb.length → (t.getD k []).length = C ∧
        ∀ j, j < C → ((t.getD k []).getD j []).length = L) ∧
      permute021 t = headApply h emb := by
  have hslot : (c.forward emb).slot i =
      (c.headOf i).map (fun hh => permute021 (headApply hh emb)) := by
    fin_cases i <;> rfl
  have hrowsC : ∀ (s : List (List ℚ)),
      ∀ r ∈ s.map (headApplyVec h), r.length = C := by
    intro s r hr
    obtain ⟨v, hv, rfl⟩ := List.mem_map.mp hr
    rw [headApplyVec_length, hw, hb, min_self]
  refine ⟨permute021 (headApply h emb), by rw [hslot, hhead]; rfl, ?_, ?_, ?_⟩
  · simp [permute021, headApply]
  · intro k hk
    have hkt : k < (permute021 (headApply h emb)).length := by
      simpa [permute021, headApply] using hk
    have hget : (permute021 (headApply h emb)).getD k [] =
        transposeMat ((emb[k]).map (headApplyVec h)) := by
      rw [List.getD_eq_getElem _ _ hkt]
      simp [permute021, headApply]
    have hslen : (emb[k]).length = L := hL _ (List.getElem_mem hk)
    have hmne : (emb[k]).map (headApplyVec h) ≠ [] := by
      intro hcon
      have := congrArg List.length hcon
      simp [hslen] at this
      omega
    have hTeq := transposeMat_eq ((emb[k]).map (headApplyVec h)) C hmne
      (hrowsC _)
    constructor
    · rw [hget, hTeq]
      simp
    · intro j hj
      rw [hget, hTeq]
      rw [List.getD_eq_getElem _ _ (by simpa using hj)]
      simp [hslen]
  · show permute021 (permute021 (headApply h emb)) = headApply h emb
    simp only [permute021, headApply, List.map_map]
    apply List.map_congr_left
    intro s hs
    simp only [Function.comp]
    rw [transposeMat_transposeMat (s.map (headApplyVec h)) C ?_ (hrowsC s) hC]
    intro hcon
    have := congrArg List.length hcon
    have hslen : s.length = L := hL s hs
    simp [hslen] at this
    omega

/-- C9 witness: a concrete classifier with an enabled upos head of one
class, applied to a one-sentence, one-word, one-dimensional embedding. -/
theorem forward_slot_is_faithful_transpose_witness :
    ∃ t, ((⟨some ⟨[[1]], [0]⟩, none, none, none,
        ⟨"sgd", 1/100, 9/10, 999/1000, none, 1/10, 10, 0, 0⟩⟩ :
        UDTubeClassifier).forward [[[2]]]).slot 0 = some t ∧
      t.length = ([[[2]]] : List (List (List ℚ))).length ∧
      (∀ k, k < ([[[2]]] : List (List (List ℚ))).length →
        (t.getD k []).length = 1 ∧
        ∀ j, j < 1 → ((t.getD k []).getD j []).length = 1) ∧
      permute021 t = headApply ⟨[[1]], [0]⟩ [[[2]]] :=
  forward_slot_is_faithful_transpose
    ⟨some ⟨[[1]], [0]⟩, none, none, none,
      ⟨"sgd", 1/100, 9/10, 999/1000, none, 1/10, 10, 0, 0⟩⟩
    0 ⟨[[1]], [0]⟩ 1 1 [[[2]]] rfl rfl rfl (by decide)
    (by intro s hs; simp at hs; simp [hs]) (by decide)

/-! ### Word-id map characterization -/

/-- The word index that subword position `i` belongs to, for a sentence
whose words have subword counts `counts`. -/
def wordIndexOf : List Nat → Nat → Nat
  | [], _ => 0
  | c :: cs, i => if i < c then 0 else wordIndexOf cs (i - c) + 1

lemma filter_range_eq_range' (p : Nat → Bool) :
    ∀ (n a b : Nat), a + b ≤ n →
      (∀ i, i < n → (p i = true ↔ a ≤ i ∧ i < a + b)) →
      (List.range n).filter p = List.range' a b := by
  intro n
  induction n with
  | zero =>
    intro a b hab hp
    have hb : b = 0 := by omega
    subst hb
    rfl
  | succ n ih =>
    intro a b hab hp
    by_cases hb : b = 0
    · subst hb
      have : ∀ i ∈ List.range (n + 1), ¬(p i = true) := by
        intro i hi hpi
        have := (hp i (List.mem_range.mp hi)).mp hpi
        omega
      simp only [List.range']
      rw [List.filter_eq_nil_iff]
      simpa using this
    · rw [List.range_succ, List.filter_append]
      by_cases hn : a + b ≤ n
      · have hpn : ¬(p n = true) := by
          intro hpn
          have := (hp n (by omega)).mp hpn
          omega
        rw [ih a b hn (fun i hi => hp i (by omega))]
        simp [List.filter, hpn]
      · have hend : a + b = n + 1 := by omega
        have hpn : p n = true := (hp n (by omega)).mpr (by omega)
        have hstep : (List.range n).filter p = List.range' a (b - 1) := by
          apply ih a (b - 1) (by omega)
          intro i hi
          rw [hp i (by omega)]
          omega
        rw [hstep]
        have hfil1 : List.filter p [n] = [n] := by simp [hpn]
        have hna : n = a + (b - 1) := by omega
        rw [hfil1, hna]
        have hcat : List.range' a ((b - 1) + 1) =
            List.range' a (b - 1) ++ [a + 1 * (b - 1)] :=
          List.range'_concat a (b - 1)
        rw [one_mul] at hcat
        rw [← hcat]
        congr 1
        omega

lemma mkWordIdsFrom_length (counts : List Nat) :
    ∀ w, (mkWordIdsFrom w counts).length = counts.sum := by
  induction counts with
  | nil => intro w; rfl
  | cons c cs ih =>
    intro w
    simp [mkWordIdsFrom, ih]

lemma mkWordIds_length (counts : List Nat) (pad : Nat) :
    (mkWordIds counts pad).length = counts.sum + pad := by
  simp [mkWordIds, mkWordIdsFrom_length]

lemma mkWordIdsFrom_getD (counts : List Nat) :
    ∀ w i, i < counts.sum →
      (mkWordIdsFrom w counts).getD i none = some (w + wordIndexOf counts i) := by
  induction counts with
  | nil => intro w i hi; simp at hi
  | cons c cs ih =>
    intro w i hi
    rw [List.sum_cons] at hi
    by_cases h : i < c
    · rw [mkWordIdsFrom, List.getD_append _ _ _ _ (by simpa using h)]
      rw [List.getD_eq_getElem _ _ (by simpa using h)]
      simp [wordIndexOf, h]
    · rw [mkWordIdsFrom,
        List.getD_append_right _ _ _ _ (by simp; omega)]
      rw [List.length_replicate]
      rw [ih (w + 1) (i - c) (by omega)]
      simp only [wordIndexOf, if_neg h]
      congr 1
      omega

lemma mkWordIds_getD (counts : List Nat) (pad i : Nat) :
    (mkWordIds counts pad).getD i none =
      if i < counts.sum then some (wordIndexOf counts i) else none := by
  split
  · rw [mkWordIds, List.getD_append _ _ _ _ (by rw [mkWordIdsFrom_length]; omega)]
    rw [mkWordIdsFrom_getD counts 0 i (by omega)]
    simp
  · rename_i h
    by_cases h2 : i < counts.sum + pad
    · rw [mkWordIds,
        List.getD_append_right _ _ _ _ (by rw [mkWordIdsFrom_length]; omega)]
      rw [mkWordIdsFrom_length]
      rw [List.getD_eq_getElem _ _ (by simp; omega)]
      simp
    · rw [List.getD_eq_default]
      rw [mkWordIds_length]
      omega

lemma offsetOf_zero (counts : List Nat) : offsetOf counts 0 = 0 := by
  simp [offsetOf]

lemma offsetOf_cons_succ (c : Nat) (cs : List Nat) (w : Nat) :
    offsetOf (c :: cs) (w + 1) = c + offsetOf cs w := by
  simp [offsetOf, List.take_succ_cons]

lemma offsetOf_add_le_sum (counts : List Nat) :
    ∀ w, w < counts.length →
      offsetOf counts w + counts.getD w 0 ≤ counts.sum := by
  induction counts with
  | nil => intro w hw; simp at hw
  | cons c cs ih =>
    intro w hw
    match w with
    | 0 => simp [offsetOf_zero, List.sum_cons]
    | w + 1 =>
      rw [offsetOf_cons_succ, List.getD_cons_succ, List.sum_cons]
      have := ih w (by simpa using hw)
      omega

lemma offsetOf_succ (counts : List Nat) :
    ∀ w, w < counts.length →
      offsetOf counts (w + 1) = offsetOf counts w + counts.getD w 0 := by
  induction counts with
  | nil => intro w hw; simp at hw
  | cons c cs ih =>
    intro w hw
    match w with
    | 0 => simp [offsetOf_cons_succ, offsetOf_zero]
    | w + 1 =>
      rw [offsetOf_cons_succ, offsetOf_cons_succ, List.getD_cons_succ,
        ih w (by simpa using hw)]
      omega

lemma wordIndexOf_eq_iff (counts : List Nat) :
    ∀ i w, (∀ c ∈ counts, 0 < c) → i < counts.sum →
      (wordIndexOf counts i = w ↔
        (offsetOf counts w ≤ i ∧ i < offsetOf counts w + counts.getD w 0)) := by
  induction counts with
  | nil => intro i w _ hi; simp at hi
  | cons c cs ih =>
    intro i w hc hi
    rw [List.sum_cons] at hi
    match w with
    | 0 =>
      rw [offsetOf_zero, List.getD_cons_zero]
      by_cases h : i < c
      · simp [wordIndexOf, h]
      · simp [wordIndexOf, h]
    | w + 1 =>
      rw [offsetOf_cons_succ, List.getD_cons_succ]
      by_cases h : i < c
      · simp only [wordIndexOf, if_pos h]
        constructor
        · intro hcon; omega
        · intro hcon; omega
      · simp only [wordIndexOf, if_neg h]
        rw [Nat.add_right_cancel_iff]
        rw [ih (i - c) w (fun x hx => hc x (by simp [hx])) (by omega)]
        omega

lemma length_le_sum (counts : List Nat) (hc : ∀ c ∈ counts, 0 < c) :
    counts.length ≤ counts.sum := by
  induction counts with
  | nil => simp
  | cons c cs ih =>
    rw [List.length_cons, List.sum_cons]
    have h1 : 0 < c := hc c (by simp)
    have h2 := ih (fun x hx => hc x (by simp [hx]))
    omega

lemma getD_pos_of_lt_length (counts : List Nat) (w : Nat)
    (hc : ∀ c ∈ counts, 0 < c) (hw : w < counts.length) :
    0 < counts.getD w 0 := by
  rw [List.getD_eq_getElem _ _ hw]
  exact hc _ (List.getElem_mem hw)

lemma range'_getLastD (a n d : Nat) :
    (List.range' a (n + 1)).getLastD d = a + n := by
  have hcat : List.range' a (n + 1) = List.range' a n ++ [a + 1 * n] :=
    List.range'_concat a n
  rw [one_mul] at hcat
  rw [hcat, List.getLastD_concat]

lemma wordToTokens_mkWordIds (counts : List Nat) (pad w : Nat)
    (hc : ∀ c ∈ counts, 0 < c) (hw : w < counts.length) :
    wordToTokens (mkWordIds counts pad) w =
      some (offsetOf counts w, offsetOf counts w + counts.getD w 0) := by
  have hfil : (List.range (mkWordIds counts pad).length).filter
      (fun i => (mkWordIds counts pad).getD i none == some w)
      = List.range' (offsetOf counts w) (counts.getD w 0) := by
    apply filter_range_eq_range'
    · rw [mkWordIds_length]
      have := offsetOf_add_le_sum counts w hw
      omega
    · intro i hi
      rw [mkWordIds_getD]
      by_cases hlt : i < counts.sum
      · rw [if_pos hlt]
        simp only [beq_iff_eq, Option.some.injEq]
        exact wordIndexOf_eq_iff counts i w hc hlt
      · rw [if_neg hlt]
        simp only [beq_iff_eq]
        constructor
        · intro hcon; exact absurd hcon (by simp)
        · intro hcon
          have := offsetOf_add_le_sum counts w hw
          omega
  unfold wordToTokens
  rw [hfil]
  have hcw : 0 < counts.getD w 0 := getD_pos_of_lt_length counts w hc hw
  obtain ⟨k, hk⟩ : ∃ k, counts.getD w 0 = k + 1 := ⟨counts.getD w 0 - 1, by omega⟩
  rw [hk, List.range'_succ]
  show some (offsetOf counts w,
      (List.range' (offsetOf counts w + 1) k).getLastD (offsetOf counts w) + 1)
    = some (offsetOf counts w, offsetOf counts w + (k + 1))
  cases k with
  | zero => simp
  | succ k2 =>
    rw [range'_getLastD]
    congr 2
    omega

/-- The expected spans of the remaining words, as reached by the scan loop
at the start of word `k`. -/
lemma scanAux_mkWordIds (counts : List Nat) (pad : Nat)
    (hc : ∀ c ∈ counts, 0 < c) :
    ∀ (n k fuel : Nat), k ≤ counts.length → counts.length - k = n →
      counts.length - k + 1 ≤ fuel →
      scanIndicesAux (mkWordIds counts pad) fuel (offsetOf counts k)
        = some (spansFrom (offsetOf counts k) (counts.drop k)) := by
  intro n
  induction n with
  | zero =>
    intro k fuel hk hn hfuel
    have hkeq : k = counts.length := by omega
    subst hkeq
    have hoff : offsetOf counts counts.length = counts.sum := by
      simp [offsetOf]
    match fuel, hfuel with
    | f + 1, _ =>
      rw [scanIndicesAux, hoff]
      rw [List.drop_length]
      by_cases hlt : counts.sum < (mkWordIds counts pad).length
      · rw [if_pos hlt, mkWordIds_getD, if_neg (by omega)]
        rfl
      · rw [if_neg hlt]
        rfl
  | succ n ih =>
    intro k fuel hk hn hfuel
    have hklt : k < counts.length := by omega
    have hcw : 0 < counts.getD k 0 := getD_pos_of_lt_length counts k hc hklt
    have hbound := offsetOf_add_le_sum counts k hklt
    have hioff : offsetOf counts k < counts.sum := by omega
    match fuel, hfuel with
    | f + 1, _ =>
      have hidx : wordIndexOf counts (offsetOf counts k) = k :=
        (wordIndexOf_eq_iff counts (offsetOf counts k) k hc hioff).mpr
          (by omega)
      have hrec : scanIndicesAux (mkWordIds counts pad) f
          (offsetOf counts k + counts.getD k 0)
          = some (spansFrom (offsetOf counts (k + 1)) (counts.drop (k + 1))) := by
        rw [← offsetOf_succ counts k hklt]
        exact ih (k + 1) f (by omega) (by omega) (by omega)
      have hdrop : counts.drop k = counts.getD k 0 :: counts.drop (k + 1) := by
        rw [List.getD_eq_getElem _ _ hklt]
        exact List.drop_eq_getElem_cons hklt
      rw [scanIndicesAux]
      rw [if_pos (by rw [mkWordIds_length]; omega)]
      rw [mkWordIds_getD, if_pos hioff, hidx]
      simp only [wordToTokens_mkWordIds counts pad k hc hklt]
      simp only [hrec]
      rw [hdrop, spansFrom]
      rw [← offsetOf_succ counts k hklt]

lemma scanIndicesFrom_mkWordIds (counts : List Nat) (pad : Nat)
    (hc : ∀ c ∈ counts, 0 < c) :
    scanIndicesFrom (mkWordIds counts pad) 0 = some (spansFrom 0 counts) := by
  have h0 : offsetOf counts 0 = 0 := offsetOf_zero counts
  have hfuel : counts.length - 0 + 1 ≤ (mkWordIds counts pad).length + 1 := by
    rw [mkWordIds_length]
    have := length_le_sum counts hc
    omega
  have := scanAux_mkWordIds counts pad hc (counts.length - 0) 0
    ((mkWordIds counts pad).length + 1) (Nat.zero_le _) rfl hfuel
  rw [h0] at this
  simpa [scanIndicesFrom] using this

lemma spansFrom_length (counts : List Nat) :
    ∀ s, (spansFrom s counts).length = counts.length := by
  induction counts with
  | nil => intro s; rfl
  | cons c cs ih => intro s; simp [spansFrom, ih]

lemma spansFrom_getD (counts : List Nat) :
    ∀ s w, w < counts.length →
      (spansFrom s counts).getD w (0, 0) =
        (s + offsetOf counts w, s + offsetOf counts w + counts.getD w 0) := by
  induction counts with
  | nil => intro s w hw; simp at hw
  | cons c cs ih =>
    intro s w hw
    match w with
    | 0 => simp [spansFrom, offsetOf_zero]
    | w + 1 =>
      rw [spansFrom, List.getD_cons_succ, ih (s + c) w (by simpa using hw)]
      rw [offsetOf_cons_succ, List.getD_cons_succ]
      simp only [Prod.mk.injEq]
      constructor <;> omega

lemma groupSentence_mkWordIds (emb : List (List ℚ)) (counts : List Nat)
    (pad : Nat) (hc : ∀ c ∈ counts, 0 < c) (hne : counts ≠ []) :
    groupSentence emb (mkWordIds counts pad)
      = some ((spansFrom 0 counts).map
          (fun se => meanRows (pySlice emb se.1 se.2))) := by
  unfold groupSentence
  rw [scanIndicesFrom_mkWordIds counts pad hc]
  match counts, hne with
  | c :: cs, _ => rfl

/-! ### Slicing and mean pooling -/

lemma pySlice_eq_map (x : List (List ℚ)) (s e : Nat) (hse : s ≤ e)
    (he : e ≤ x.length) :
    pySlice x s e = (List.range' s (e - s)).map (fun i => x.getD i []) := by
  have hlen : (pySlice x s e).length = e - s := by
    simp [pySlice]
    omega
  have hlen2 : ((List.range' s (e - s)).map (fun i => x.getD i [])).length
      = e - s := by simp
  apply List.ext_getElem (by rw [hlen, hlen2])
  intro k h1 h2
  have hke : k < e - s := by rw [hlen] at h1; exact h1
  have hks : s + k < e := by omega
  have htk : (x.take e).length = e := by simp; omega
  rw [List.getElem_map, List.getElem_range']
  rw [show s + 1 * k = s + k from by omega]
  rw [List.getD_eq_getElem _ _ (by omega)]
  simp only [pySlice]
  rw [List.getElem_drop, List.getElem_take]

lemma sumRows_spec (rows : List (List ℚ)) (H : Nat) (hne : rows ≠ [])
    (hH : ∀ r ∈ rows, r.length = H) :
    (sumRows rows).length = H ∧
      ∀ j, j < H →
        (sumRows rows).getD j 0 = (rows.map (fun r => r.getD j 0)).sum := by
  induction rows with
  | nil => exact absurd rfl hne
  | cons r rs ih =>
    have hr : r.length = H := hH r (by simp)
    cases rs with
    | nil =>
      refine ⟨hr, ?_⟩
      intro j hj
      simp [sumRows]
    | cons r2 rs2 =>
      obtain ⟨ihlen, ihval⟩ := ih (by simp) (fun q hq => hH q (by simp [hq]))
      have hsum : sumRows (r :: r2 :: rs2) = vadd r (sumRows (r2 :: rs2)) := rfl
      have hvlen : (vadd r (sumRows (r2 :: rs2))).length = H := by
        simp [vadd, hr, ihlen]
      refine ⟨by rw [hsum]; exact hvlen, ?_⟩
      intro j hj
      rw [hsum, List.getD_eq_getElem _ _ (by rw [hvlen]; omega)]
      simp only [vadd]
      rw [List.getElem_zipWith]
      rw [List.map_cons, List.sum_cons]
      rw [← List.getD_eq_getElem r 0 (by omega),
        ← List.getD_eq_getElem (sumRows (r2 :: rs2)) 0 (by rw [ihlen]; omega)]
      rw [ihval j hj]

lemma meanRows_spec (rows : List (List ℚ)) (H : Nat) (hne : rows ≠ [])
    (hH : ∀ r ∈ rows, r.length = H) :
    (meanRows rows).length = H ∧
      ∀ j, j < H →
        (meanRows rows).getD j 0 =
          (rows.map (fun r => r.getD j 0)).sum / (rows.length : ℚ) := by
  obtain ⟨hlen, hval⟩ := sumRows_spec rows H hne hH
  constructor
  · simp [meanRows, hlen]
  · intro j hj
    rw [meanRows, List.getD_eq_getElem _ _ (by simp [hlen]; omega)]
    rw [List.getElem_map]
    rw [← List.getD_eq_getElem (sumRows rows) 0 (by rw [hlen]; omega)]
    rw [hval j hj]

lemma meanRows_single (r : List ℚ) : meanRows [r] = r := by
  unfold meanRows sumRows
  simp

/-- C3: for any sentence obeying the tokenizer invariant (word `w` has
`counts[w] ≥ 1` contiguous subwords), the aggregator's embedding for word
`w`, spanning subword positions `[s, e)` with `s = offsetOf counts w` and
`e = s + counts[w]`, is the elementwise arithmetic mean of the subword
embeddings at positions `s .. e-1`; when the span has a single subword the
word embedding equals that subword's embedding exactly. -/
theorem groupSentence_word_is_subword_mean (counts : List Nat)
    (pad H w : Nat) (emb : List (List ℚ))
    (hc : ∀ c ∈ counts, 0 < c) (hw : w < counts.length)
    (hlen : counts.sum ≤ emb.length) (hH : ∀ r ∈ emb, r.length = H) :
    ∃ out, groupSentence emb (mkWordIds counts pad) = some out ∧
      out.length = counts.length ∧
      (out.getD w []).length = H ∧
      (∀ j, j < H → (out.getD w []).getD j 0 =
        ((List.range' (offsetOf counts w) (counts.getD w 0)).map
          (fun i => (emb.getD i []).getD j 0)).sum / (counts.getD w 0 : ℚ)) ∧
      (counts.getD w 0 = 1 →
        out.getD w [] = emb.getD (offsetOf counts w) []) := by
  have hne : counts ≠ [] := by
    intro hcon
    subst hcon
    simp at hw
  rw [groupSentence_mkWordIds emb counts pad hc hne]
  set s0 := offsetOf counts w with hs0
  set cw := counts.getD w 0 with hcw
  have hcwpos : 0 < cw := getD_pos_of_lt_length counts w hc hw
  have hbound : s0 + cw ≤ counts.sum := offsetOf_add_le_sum counts w hw
  have houtlen : ((spansFrom 0 counts).map
      (fun se => meanRows (pySlice emb se.1 se.2))).length = counts.length := by
    simp [spansFrom_length]
  have hgetw : ((spansFrom 0 counts).map
      (fun se => meanRows (pySlice emb se.1 se.2))).getD w []
      = meanRows (pySlice emb s0 (s0 + cw)) := by
    rw [List.getD_eq_getElem _ _ (by rw [houtlen]; omega)]
    rw [List.getElem_map]
    have hwlt2 : w < (spansFrom 0 counts).length := by
      rw [spansFrom_length]
      omega
    have : (spansFrom 0 counts)[w] = (s0, s0 + cw) := by
      rw [← List.getD_eq_getElem (spansFrom 0 counts) (0, 0)
        (by rw [spansFrom_length]; omega)]
      rw [spansFrom_getD counts 0 w hw]
      simp [hs0, hcw]
    rw [this]
  have hslice : pySlice emb s0 (s0 + cw)
      = (List.range' s0 cw).map (fun i => emb.getD i []) := by
    have := pySlice_eq_map emb s0 (s0 + cw) (by omega) (by omega)
    rw [show s0 + cw - s0 = cw from by omega] at this
    exact this
  have hslicene : pySlice emb s0 (s0 + cw) ≠ [] := by
    rw [hslice]
    intro hcon
    have := congrArg List.length hcon
    simp at this
    omega
  have hslicerect : ∀ r ∈ pySlice emb s0 (s0 + cw), r.length = H := by
    rw [hslice]
    intro r hr
    obtain ⟨i, hi, rfl⟩ := List.mem_map.mp hr
    have hib := List.mem_range'.mp hi
    have : i < emb.length := by omega
    rw [List.getD_eq_getElem _ _ this]
    exact hH _ (List.getElem_mem this)
  obtain ⟨hmlen, hmval⟩ :=
    meanRows_spec (pySlice emb s0 (s0 + cw)) H hslicene hslicerect
  have hslicelen : (pySlice emb s0 (s0 + cw)).length = cw := by
    rw [hslice]
    simp
  refine ⟨_, rfl, houtlen, ?_, ?_, ?_⟩
  · rw [hgetw]
    exact hmlen
  · intro j hj
    rw [hgetw, hmval j hj, hslicelen, hslice, List.map_map]
    rfl
  · intro h1
    rw [hgetw]
    have : pySlice emb s0 (s0 + cw) = [emb.getD s0 []] := by
      rw [hslice, h1]
      simp
    rw [this, meanRows_single]

/-- C3 witness: a sentence with two words, the first spanning two subwords
and the second one subword; the first word's embedding is the mean of rows
0 and 1, and the single-subword second word keeps its row exactly. -/
theorem groupSentence_word_is_subword_mean_witness :
    ∃ out, groupSentence [[1, 2], [3, 4], [5, 6]] (mkWordIds [2, 1] 0)
        = some out ∧
      out.length = ([2, 1] : List Nat).length ∧
      (out.getD 0 []).length = 2 ∧
      (∀ j, j < 2 → (out.getD 0 []).getD j 0 =
        ((List.range' (offsetOf [2, 1] 0) (([2, 1] : List Nat).getD 0 0)).map
          (fun i => (([[1, 2], [3, 4], [5, 6]] :
            List (List ℚ)).getD i []).getD j 0)).sum /
          ((([2, 1] : List Nat).getD 0 0 : Nat) : ℚ)) ∧
      (([2, 1] : List Nat).getD 0 0 = 1 →
        out.getD 0 [] = ([[1, 2], [3, 4], [5, 6]] :
          List (List ℚ)).getD (offsetOf [2, 1] 0) []) :=
  groupSentence_word_is_subword_mean [2, 1] 0 2 0 [[1, 2], [3, 4], [5, 6]]
    (by decide) (by decide) (by decide)
    (by intro r hr; simp at hr; rcases hr with h | h | h <;> simp [h])

/-! ### Ragged-batch padding -/

lemma getD_replicate_zero (k n : Nat) :
    (List.replicate k (0 : ℚ)).getD n 0 = 0 := by
  by_cases h : n < k
  · rw [List.getD_eq_getElem _ _ (by simpa using h)]
    simp
  · rw [List.getD_eq_default]
    simp
    omega

lemma transposeMat_padCols_transposeMat (m : List (List ℚ)) (H k : Nat)
    (hm : m ≠ []) (hpos : 0 < H) (hH : ∀ r ∈ m, r.length = H) :
    transposeMat (padCols (transposeMat m) k)
      = m ++ List.replicate k (List.replicate H 0) := by
  have hT := transposeMat_eq m H hm hH
  have hpad : padCols (transposeMat m) k
      = (List.range H).map
          (fun j => (m.map (fun row => row.getD j 0)) ++ List.replicate k 0) := by
    rw [padCols, hT, List.map_map]
    rfl
  have hpadne : padCols (transposeMat m) k ≠ [] := by
    rw [hpad]
    intro hcon
    have := congrArg List.length hcon
    simp at this
    omega
  have hpadrows : ∀ r ∈ padCols (transposeMat m) k,
      r.length = m.length + k := by
    rw [hpad]
    intro r hr
    obtain ⟨j, hj, rfl⟩ := List.mem_map.mp hr
    simp
  have hT2 := transposeMat_eq (padCols (transposeMat m) k) (m.length + k)
    hpadne hpadrows
  rw [hT2]
  have hlen1 : ((List.range (m.length + k)).map
      (fun i => (padCols (transposeMat m) k).map
        (fun row => row.getD i 0))).length = m.length + k := by simp
  have hlen2 : (m ++ List.replicate k (List.replicate H 0)).length
      = m.length + k := by simp
  apply List.ext_getElem (by rw [hlen1, hlen2])
  intro i h1 h2
  rw [List.getElem_map, List.getElem_range]
  rw [hpad, List.map_map]
  by_cases hiW : i < m.length
  · have hrow : ∀ j ∈ List.range H,
        ((fun row => row.getD i 0) ∘
          fun j => (m.map (fun row => row.getD j 0)) ++ List.replicate k 0) j
          = (m[i]).getD j 0 := by
      intro j hj
      simp only [Function.comp]
      rw [List.getD_append _ _ _ _ (by simpa using hiW)]
      rw [List.getD_eq_getElem _ _ (by simpa using hiW), List.getElem_map]
    rw [List.map_congr_left hrow]
    have hilen : (m[i]).length = H := hH _ (List.getElem_mem hiW)
    have hrec := rangeMap_getD (m.get ⟨i, hiW⟩) (0 : ℚ)
    simp only [List.get_eq_getElem] at hrec
    rw [hilen] at hrec
    rw [hrec]
    rw [List.getElem_append_left hiW]
  · have hrow : ∀ j ∈ List.range H,
        ((fun row => row.getD i 0) ∘
          fun j => (m.map (fun row => row.getD j 0)) ++ List.replicate k 0) j
          = 0 := by
      intro j hj
      simp only [Function.comp]
      rw [List.getD_append_right _ _ _ _ (by simp; omega)]
      rw [List.length_map]
      exact getD_replicate_zero k (i - m.length)
    rw [List.map_congr_left hrow]
    rw [List.getElem_append_right (by omega)]
    simp

lemma allSome_spec (l : List (Option (List (List ℚ))))
    (h : ∀ x ∈ l, x ≠ none) :
    ∃ vs, allSome l = some vs ∧ vs.length = l.length ∧
      ∀ k, k < l.length → some (vs.getD k []) = l.getD k none := by
  induction l with
  | nil => exact ⟨[], rfl, rfl, by intro k hk; simp at hk⟩
  | cons x xs ih =>
    obtain ⟨m, rfl⟩ : ∃ m, x = some m := by
      cases x with
      | none => exact absurd rfl (h none (by simp))
      | some m => exact ⟨m, rfl⟩
    obtain ⟨vs, hvs, hlen, hval⟩ := ih (fun y hy => h y (by simp [hy]))
    refine ⟨m :: vs, ?_, by simp [hlen], ?_⟩
    · simp only [allSome, hvs]
    · intro j hj
      match j with
      | 0 => simp
      | j + 1 =>
        rw [List.getD_cons_succ, List.getD_cons_succ]
        exact hval j (by simpa using hj)

lemma allSome_eq_none (l : List (Option (List (List ℚ)))) (h : none ∈ l) :
    allSome l = none := by
  induction l with
  | nil => simp at h
  | cons x xs ih =>
    cases x with
    | none => rfl
    | some m =>
      have hxs : none ∈ xs := by simpa using h
      simp only [allSome, ih hxs]

lemma mem_le_foldr_max (l : List Nat) (x : Nat) (hx : x ∈ l) :
    x ≤ l.foldr max 0 := by
  induction l with
  | nil => simp at hx
  | cons a as ih =>
    rw [List.foldr_cons]
    rcases List.mem_cons.mp hx with h | h
    · subst h
      exact le_max_left _ _
    · exact le_trans (ih h) (le_max_right _ _)

lemma groupSentence_rows_rect (emb : List (List ℚ)) (counts : List Nat)
    (H : Nat) (hc : ∀ c ∈ counts, 0 < c) (hlen : counts.sum ≤ emb.length)
    (hH : ∀ r ∈ emb, r.length = H) :
    ∀ r ∈ (spansFrom 0 counts).map
      (fun se => meanRows (pySlice emb se.1 se.2)), r.length = H := by
  intro r hr
  obtain ⟨se, hse, rfl⟩ := List.mem_map.mp hr
  obtain ⟨w, hwlt, hweq⟩ := List.mem_iff_getElem.mp hse
  rw [spansFrom_length] at hwlt
  set s0 := offsetOf counts w with hs0
  set cw := counts.getD w 0 with hcwdef
  have hseq : se = (s0, s0 + cw) := by
    rw [← hweq, ← List.getD_eq_getElem (spansFrom 0 counts) (0, 0)
      (by rw [spansFrom_length]; omega)]
    rw [spansFrom_getD counts 0 w hwlt]
    simp [hs0, hcwdef]
  subst hseq
  have hcw : 0 < cw := getD_pos_of_lt_length counts w hc hwlt
  have hbound : s0 + cw ≤ counts.sum := offsetOf_add_le_sum counts w hwlt
  have hslice : pySlice emb s0 (s0 + cw)
      = (List.range' s0 cw).map (fun i => emb.getD i []) := by
    have := pySlice_eq_map emb s0 (s0 + cw) (by omega) (by omega)
    rw [show s0 + cw - s0 = cw from by omega] at this
    exact this
  have hslicene : pySlice emb s0 (s0 + cw) ≠ [] := by
    rw [hslice]
    intro hcon
    have := congrArg List.length hcon
    simp at this
    omega
  have hslicerect : ∀ q ∈ pySlice emb s0 (s0 + cw), q.length = H := by
    rw [hslice]
    intro q hq
    obtain ⟨i, hi, rfl⟩ := List.mem_map.mp hq
    have hib := List.mem_range'.mp hi
    have hilt : i < emb.length := by omega
    rw [List.getD_eq_getElem _ _ hilt]
    exact hH _ (List.getElem_mem hilt)
  exact (meanRows_spec _ H hslicene hslicerect).1

lemma groupSentence_pad_head (emb : List (List ℚ))
    (rest : List (Option Nat)) :
    groupSentence emb (none :: rest) = none := by
  have h1 : ∀ fuel, scanIndicesAux (none :: rest) (fuel + 1) 0 = some [] := by
    intro fuel
    rw [scanIndicesAux]
    rw [if_pos (by simp)]
    rfl
  unfold groupSentence scanIndicesFrom
  have h2 : (none :: rest : List (Option Nat)).length + 1
      = rest.length + 1 + 1 := by simp
  rw [h2, h1]

/-- C2 (counterexample): a batch whose second sentence has zero real words
(its word-id map starts with the padding marker `None`) makes
`_group_embeddings` fail — `torch.stack` is applied to an empty list of
word embeddings — instead of producing a well-formed (0 x hidden-size)
tensor for that sentence. -/
theorem groupEmbeddings_zero_word_sentence_fails :
    groupEmbeddings [[[1, 2]], [[3, 4]]] [[some 0], [none]] = none := rfl

/-- C2 (amended): for every batch containing a sentence whose word-id map
starts with the padding marker, `_group_embeddings` raises (models as
`none`: the per-sentence span list is empty and `torch.stack([])` raises
`RuntimeError`); no padded tensor is produced for the batch at all. -/
theorem groupEmbeddings_zero_word_sentence_raises
    (embs : List (List (List ℚ))) (widss : List (List (Option Nat)))
    (k : Nat) (hk1 : k < widss.length) (hk2 : k < embs.length)
    (hzero : (widss.getD k []).head? = some none) :
    groupEmbeddings embs widss = none := by
  obtain ⟨rest, hrest⟩ : ∃ rest, widss.getD k [] = none :: rest := by
    cases hh : widss.getD k [] with
    | nil => rw [hh] at hzero; simp at hzero
    | cons a rest =>
      rw [hh] at hzero
      simp at hzero
      exact ⟨rest, by rw [hzero]⟩
  have hgs : groupSentence (embs.getD k []) (widss.getD k []) = none := by
    rw [hrest]
    exact groupSentence_pad_head _ rest
  have hklen : k < (List.zip widss embs).length := by
    rw [List.length_zip]
    omega
  have hmem : none ∈ (List.zip widss embs).map
      (fun p => groupSentence p.2 p.1) := by
    have hkm : k < ((List.zip widss embs).map
        (fun p => groupSentence p.2 p.1)).length := by
      simpa using hklen
    have hgetk : ((List.zip widss embs).map
        (fun p => groupSentence p.2 p.1))[k] = none := by
      rw [List.getElem_map, List.getElem_zip]
      show groupSentence (embs[k]) (widss[k]) = none
      rw [← List.getD_eq_getElem widss [] hk1,
        ← List.getD_eq_getElem embs [] hk2]
      exact hgs
    rw [← hgetk]
    exact List.getElem_mem _
  unfold groupEmbeddings
  rw [allSome_eq_none _ hmem]

/-- C2 amended witness: a one-sentence batch whose word-id map is `[None]`
makes the aggregator fail. -/
theorem groupEmbeddings_zero_word_sentence_raises_witness :
    groupEmbeddings [[[5]]] [[none]] = none :=
  groupEmbeddings_zero_word_sentence_raises [[[5]]] [[none]] 0 (by decide)
    (by decide) (by decide)

/-- C4: for every invariant-satisfying batch, the word-embedding tensor
produced by `_group_embeddings` has one row block per sentence; its word
axis has length equal to the maximum per-sentence word count of the batch;
each sentence's block is its own word embeddings (unchanged) followed by
exactly-zero rows up to the batch maximum. -/
theorem groupEmbeddings_pads_to_batch_max (countss : List (List Nat))
    (pads : List Nat) (embs : List (List (List ℚ))) (H : Nat)
    (hlen1 : countss.length = embs.length)
    (hlen2 : pads.length = countss.length)
    (hN : 0 < countss.length)
    (hc : ∀ cs ∈ countss, cs ≠ [] ∧ ∀ c ∈ cs, 0 < c)
    (hemb : ∀ k, k < countss.length →
      (countss.getD k []).sum ≤ (embs.getD k []).length ∧
      ∀ r ∈ embs.getD k [], r.length = H)
    (hpos : 0 < H) :
    ∃ out, groupEmbeddings embs (List.zipWith mkWordIds countss pads)
        = some out ∧
      out.length = countss.length ∧
      ∀ k, k < countss.length →
        ∃ sent, groupSentence (embs.getD k [])
            (mkWordIds (countss.getD k []) (pads.getD k 0)) = some sent ∧
          sent.length = (countss.getD k []).length ∧
          out.getD k [] = sent ++ List.replicate
            (((countss.map List.length).foldr max 0) -
              (countss.getD k []).length) (List.replicate H 0) ∧
          (out.getD k []).length = (countss.map List.length).foldr max 0 ∧
          ∀ wd, (countss.getD k []).length ≤ wd →
            wd < (countss.map List.length).foldr max 0 →
            (out.getD k []).getD wd [] = List.replicate H 0 := by
  have hwlen : (List.zipWith mkWordIds countss pads).length
      = countss.length := by
    rw [List.length_zipWith]
    omega
  set l := (List.zip (List.zipWith mkWordIds countss pads) embs).map
      (fun p => groupSentence p.2 p.1) with hl
  have hziplen : (List.zip (List.zipWith mkWordIds countss pads) embs).length
      = countss.length := by
    rw [List.length_zip, hwlen, ← hlen1, min_self]
  have hllen : l.length = countss.length := by
    rw [hl, List.length_map, hziplen]
  have hck : ∀ k, k < countss.length →
      (countss.getD k []) ≠ [] ∧ ∀ c ∈ countss.getD k [], 0 < c := by
    intro k hk
    have hmem : countss.getD k [] ∈ countss := by
      rw [List.getD_eq_getElem _ _ hk]
      exact List.getElem_mem hk
    exact hc _ hmem
  have hsent : ∀ k, k < countss.length →
      groupSentence (embs.getD k [])
          (mkWordIds (countss.getD k []) (pads.getD k 0))
        = some ((spansFrom 0 (countss.getD k [])).map
            (fun se => meanRows (pySlice (embs.getD k []) se.1 se.2))) := by
    intro k hk
    exact groupSentence_mkWordIds _ _ _ (hck k hk).2 (hck k hk).1
  have hlget : ∀ k, k < countss.length →
      l.getD k none = some ((spansFrom 0 (countss.getD k [])).map
        (fun se => meanRows (pySlice (embs.getD k []) se.1 se.2))) := by
    intro k hk
    have hke : k < embs.length := by omega
    have hkp : k < pads.length := by omega
    rw [hl, List.getD_eq_getElem _ _ (by rw [List.length_map, hziplen]; omega)]
    simp only [List.getElem_map, List.getElem_zip, List.getElem_zipWith]
    rw [← List.getD_eq_getElem embs [] hke,
      ← List.getD_eq_getElem countss [] hk,
      ← List.getD_eq_getElem pads 0 hkp]
    exact hsent k hk
  have hnone : ∀ x ∈ l, x ≠ none := by
    intro x hx
    obtain ⟨k, hk, hxeq⟩ := List.mem_iff_getElem.mp hx
    rw [hllen] at hk
    rw [← hxeq, ← List.getD_eq_getElem l none (by rw [hllen]; omega)]
    rw [hlget k hk]
    simp
  obtain ⟨vs, hallsome, hvslen, hvsval⟩ := allSome_spec l hnone
  rw [hllen] at hvslen
  have hvsk : ∀ k, k < countss.length →
      vs.getD k [] = (spansFrom 0 (countss.getD k [])).map
        (fun se => meanRows (pySlice (embs.getD k []) se.1 se.2)) := by
    intro k hk
    have := hvsval k (by rw [hllen]; omega)
    rw [hlget k hk] at this
    exact Option.some.inj this
  have hvsne : vs ≠ [] := by
    intro hcon
    rw [hcon] at hvslen
    simp at hvslen
    omega
  have hge : groupEmbeddings embs (List.zipWith mkWordIds countss pads)
      = some (vs.map (fun m => transposeMat (padCols (transposeMat m)
          (((vs.map List.length).foldr max 0) - m.length)))) := by
    unfold groupEmbeddings
    rw [← hl, hallsome]
    cases vs with
    | nil => exact absurd rfl hvsne
    | cons v0 vrest => rfl
  have hvslenk : ∀ k, k < countss.length →
      (vs.getD k []).length = (countss.getD k []).length := by
    intro k hk
    rw [hvsk k hk, List.length_map, spansFrom_length]
  have hmapeq : vs.map List.length = countss.map List.length := by
    apply List.ext_getElem (by simp [hvslen])
    intro i h1 h2
    have hi : i < countss.length := by simpa using h2
    rw [List.getElem_map, List.getElem_map]
    rw [← List.getD_eq_getElem vs [] (by omega),
      ← List.getD_eq_getElem countss [] hi]
    exact hvslenk i hi
  rw [hmapeq] at hge
  have hmaxk : ∀ k, k < countss.length →
      (countss.getD k []).length ≤ (countss.map List.length).foldr max 0 := by
    intro k hk
    apply mem_le_foldr_max
    rw [List.getD_eq_getElem _ _ hk]
    exact List.mem_map.mpr ⟨countss[k], List.getElem_mem hk, rfl⟩
  refine ⟨_, hge, by simp [hvslen], ?_⟩
  intro k hk
  have houtk : (vs.map (fun m => transposeMat (padCols (transposeMat m)
      ((countss.map List.length).foldr max 0 - m.length)))).getD k []
      = transposeMat (padCols (transposeMat (vs.getD k []))
          ((countss.map List.length).foldr max 0 - (vs.getD k []).length)) := by
    rw [List.getD_eq_getElem _ _ (by rw [List.length_map]; omega),
      List.getElem_map]
    rw [← List.getD_eq_getElem vs [] (by omega)]
  have hrect : ∀ r ∈ vs.getD k [], r.length = H := by
    rw [hvsk k hk]
    exact groupSentence_rows_rect _ _ H (hck k hk).2 (hemb k hk).1
      (hemb k hk).2
  have hkne : vs.getD k [] ≠ [] := by
    intro hcon
    have hlk := hvslenk k hk
    rw [hcon] at hlk
    simp only [List.length_nil] at hlk
    exact (hck k hk).1 (List.length_eq_zero.mp hlk.symm)
  have hpadk := transposeMat_padCols_transposeMat (vs.getD k []) H
    ((countss.map List.length).foldr max 0 - (vs.getD k []).length)
    hkne hpos hrect
  refine ⟨_, hsent k hk, by rw [List.length_map, spansFrom_length], ?_, ?_, ?_⟩
  · rw [houtk, hpadk, hvslenk k hk, hvsk k hk]
  · rw [houtk, hpadk]
    rw [List.length_append, List.length_replicate, hvslenk k hk]
    have := hmaxk k hk
    omega
  · intro wd hwd1 hwd2
    rw [houtk, hpadk]
    rw [List.getD_append_right _ _ _ _ (by rw [hvslenk k hk]; omega)]
    rw [hvslenk k hk]
    rw [List.getD_eq_getElem _ _ (by rw [List.length_replicate]; omega)]
    simp

/-- C4 witness: the spec's end-to-end scenario — two sentences with word
counts 3 and 5 (single-subword words), hidden size 2 — yields a (2 x 5 x 2)
tensor whose first sentence block ends with two all-zero word slots. -/
theorem groupEmbeddings_pads_to_batch_max_witness :
    ∃ out, groupEmbeddings
        [[[1, 0], [2, 0], [3, 0], [9, 9], [9, 9]],
         [[4, 1], [5, 1], [6, 1], [7, 1], [8, 1]]]
        (List.zipWith mkWordIds [[1, 1, 1], [1, 1, 1, 1, 1]] [2, 0])
        = some out ∧
      out.length = ([[1, 1, 1], [1, 1, 1, 1, 1]] : List (List Nat)).length ∧
      ∀ k, k < ([[1, 1, 1], [1, 1, 1, 1, 1]] : List (List Nat)).length →
        ∃ sent, groupSentence
            (([[[1, 0], [2, 0], [3, 0], [9, 9], [9, 9]],
               [[4, 1], [5, 1], [6, 1], [7, 1], [8, 1]]] :
              List (List (List ℚ))).getD k [])
            (mkWordIds (([[1, 1, 1], [1, 1, 1, 1, 1]] :
              List (List Nat)).getD k []) (([2, 0] : List Nat).getD k 0))
            = some sent ∧
          sent.length = (([[1, 1, 1], [1, 1, 1, 1, 1]] :
            List (List Nat)).getD k []).length ∧
          out.getD k [] = sent ++ List.replicate
            (((([[1, 1, 1], [1, 1, 1, 1, 1]] :
              List (List Nat)).map List.length).foldr max 0) -
              (([[1, 1, 1], [1, 1, 1, 1, 1]] :
                List (List Nat)).getD k []).length) (List.replicate 2 0) ∧
          (out.getD k []).length = (([[1, 1, 1], [1, 1, 1, 1, 1]] :
            List (List Nat)).map List.length).foldr max 0 ∧
          ∀ wd, (([[1, 1, 1], [1, 1, 1, 1, 1]] :
              List (List Nat)).getD k []).length ≤ wd →
            wd < (([[1, 1, 1], [1, 1, 1, 1, 1]] :
              List (List Nat)).map List.length).foldr max 0 →
            (out.getD k []).getD wd [] = List.replicate 2 0 :=
  groupEmbeddings_pads_to_batch_max [[1, 1, 1], [1, 1, 1, 1, 1]] [2, 0]
    [[[1, 0], [2, 0], [3, 0], [9, 9], [9, 9]],
     [[4, 1], [5, 1], [6, 1], [7, 1], [8, 1]]] 2 rfl rfl (by decide)
    (by decide)
    (by
      intro k hk
      have hk2 : k < 2 := by simpa using hk
      interval_cases k <;> exact ⟨by decide, by decide⟩)
    (by decide)
